import Mathlib

/-!
Verification of the serial-scale reader against its specification.

The repository contains six near-duplicate React front ends that read weight
telemetry from a serial scale. The logic under verification is shallowly
embedded here:

* `splitFirst` / `jsSplit` model JavaScript `String.prototype.split` on a
  non-empty delimiter (leftmost occurrence first), used by
  `makeLineTransformer` in every front end;
* `transformStep` / `runChunks` / `framerOutput` model the incremental
  line framer (`makeLineTransformer`): append the chunk to a carry buffer,
  split off every complete line, keep the tail, and flush a non-empty tail
  at stream end;
* strings are modelled as `List Char`, bytes as `Nat`.

Proof layout: generic split lemmas first, then one section per verified
component, each ending with the theorem(s) for the corresponding claim.
-/

set_option maxHeartbeats 1600000

namespace ScaleReader

section SplitUtils

variable {α : Type*} [DecidableEq α]

/-- Leftmost-first search for an occurrence of `d` in `s`, as performed by the
JavaScript string methods `indexOf`/`split`/`includes`. Returns the part
before the first occurrence and the part after it. -/
def splitFirst (d : List α) (s : List α) : Option (List α × List α) :=
  if d <+: s then some ([], s.drop d.length)
  else
    match s with
    | [] => none
    | c :: rest => (splitFirst d rest).map (fun pr => (c :: pr.1, pr.2))

theorem splitFirst_pos {d s : List α} (h : d <+: s) :
    splitFirst d s = some ([], s.drop d.length) := by
  cases s <;> simp [splitFirst, h]

theorem splitFirst_neg_nil {d : List α} (h : ¬ d <+: ([] : List α)) :
    splitFirst d [] = none := by
  simp [splitFirst, h]

theorem splitFirst_neg_cons {d : List α} {c : α} {rest : List α}
    (h : ¬ d <+: (c :: rest)) :
    splitFirst d (c :: rest) = (splitFirst d rest).map (fun pr => (c :: pr.1, pr.2)) := by
  simp [splitFirst, h]

theorem splitFirst_nil_of_ne {d : List α} (hd : d ≠ []) :
    splitFirst d [] = none :=
  splitFirst_neg_nil (by simp [List.prefix_nil, hd])

theorem splitFirst_dlen_le {d : List α} :
    ∀ {s : List α} {pr : List α × List α}, splitFirst d s = some pr → d.length ≤ s.length := by
  intro s
  induction s with
  | nil =>
    intro pr h
    by_cases hp : d <+: ([] : List α)
    · exact hp.length_le
    · rw [splitFirst_neg_nil hp] at h
      exact absurd h (by simp)
  | cons c rest ih =>
    intro pr h
    by_cases hp : d <+: (c :: rest)
    · exact hp.length_le
    · rw [splitFirst_neg_cons hp] at h
      rcases Option.map_eq_some'.mp h with ⟨pr', hpr', _⟩
      exact le_trans (ih hpr') (by simp)

theorem splitFirst_snd_lt {d : List α} (hd : d ≠ []) :
    ∀ {s : List α} {pr : List α × List α}, splitFirst d s = some pr → pr.2.length < s.length := by
  intro s
  induction s with
  | nil =>
    intro pr h
    rw [splitFirst_nil_of_ne hd] at h
    exact absurd h (by simp)
  | cons c rest ih =>
    intro pr h
    by_cases hp : d <+: (c :: rest)
    · rw [splitFirst_pos hp] at h
      cases h
      have h1 : 1 ≤ d.length := by
        cases d with
        | nil => exact absurd rfl hd
        | cons x xs => simp
      simp only [List.length_drop, List.length_cons]
      omega
    · rw [splitFirst_neg_cons hp] at h
      rcases Option.map_eq_some'.mp h with ⟨pr', hpr', heq⟩
      have hlt := ih hpr'
      have : pr.2 = pr'.2 := by rw [← heq]
      rw [this]
      exact lt_trans hlt (by simp)

theorem prefix_of_append_of_le {l s b : List α} (h : l <+: s ++ b)
    (hl : l.length ≤ s.length) : l <+: s := by
  rw [List.prefix_iff_eq_take] at h ⊢
  rwa [List.take_append_of_le_length hl] at h

theorem splitFirst_append {d : List α} (hd : d ≠ []) :
    ∀ {s : List α} {b p q : List α}, splitFirst d s = some (p, q) →
      splitFirst d (s ++ b) = some (p, q ++ b) := by
  intro s
  induction s with
  | nil =>
    intro b p q h
    rw [splitFirst_nil_of_ne hd] at h
    exact absurd h (by simp)
  | cons c rest ih =>
    intro b p q h
    by_cases hp : d <+: (c :: rest)
    · rw [splitFirst_pos hp] at h
      simp only [Option.some.injEq, Prod.mk.injEq] at h
      obtain ⟨rfl, rfl⟩ := h
      have hp' : d <+: (c :: rest) ++ b := hp.trans (List.prefix_append _ _)
      rw [splitFirst_pos hp', List.drop_append_of_le_length hp.length_le]
    · rw [splitFirst_neg_cons hp] at h
      rcases Option.map_eq_some'.mp h with ⟨⟨p', q'⟩, hpr', heq⟩
      simp only [Prod.mk.injEq] at heq
      obtain ⟨rfl, rfl⟩ := heq
      have hdlen : d.length ≤ (c :: rest).length := by
        have := splitFirst_dlen_le hpr'
        simp only [List.length_cons]
        omega
      have hp2 : ¬ d <+: c :: (rest ++ b) := fun hcon => by
        rw [← List.cons_append] at hcon
        exact hp (prefix_of_append_of_le hcon hdlen)
      rw [List.cons_append, splitFirst_neg_cons hp2, ih hpr']
      rfl

/-- JavaScript `s.split(d)` for a non-empty separator `d`: the list of parts
between consecutive leftmost occurrences of `d`.  For `d = []` (never used by
the source) we return `[s]` to keep the function total. -/
def jsSplit (d : List α) (s : List α) : List (List α) :=
  if hd : d = [] then [s]
  else
    match hsp : splitFirst d s with
    | none => [s]
    | some pr => pr.1 :: jsSplit d pr.2
termination_by s.length
decreasing_by exact splitFirst_snd_lt hd hsp

theorem jsSplit_of_none {d s : List α} (hd : d ≠ []) (h : splitFirst d s = none) :
    jsSplit d s = [s] := by
  rw [jsSplit]
  rw [dif_neg hd]
  split <;> simp_all

theorem jsSplit_of_some {d s : List α} {pr : List α × List α} (hd : d ≠ [])
    (h : splitFirst d s = some pr) :
    jsSplit d s = pr.1 :: jsSplit d pr.2 := by
  rw [jsSplit]
  rw [dif_neg hd]
  split <;> simp_all

theorem jsSplit_ne_nil {d s : List α} : jsSplit d s ≠ [] := by
  rw [jsSplit]
  split
  · simp
  · split <;> simp

theorem getLastD_cons_of_ne_nil {β : Type*} {l : List β} (h : l ≠ []) (x y : β) :
    (x :: l).getLastD y = l.getLastD y := by
  cases l with
  | nil => exact absurd rfl h
  | cons a as => simp [List.getLastD_cons]

theorem dropLast_cons_of_ne_nil {β : Type*} {l : List β} (h : l ≠ []) (x : β) :
    (x :: l).dropLast = x :: l.dropLast := by
  cases l with
  | nil => exact absurd rfl h
  | cons a as => rfl

theorem dropLast_append_ne_nil {β : Type*} {l₁ l₂ : List β} (h : l₂ ≠ []) :
    (l₁ ++ l₂).dropLast = l₁ ++ l₂.dropLast := by
  rw [List.dropLast_append]
  simp [h]

theorem getLastD_append_ne_nil {β : Type*} {l₁ l₂ : List β} (h : l₂ ≠ []) (x : β) :
    (l₁ ++ l₂).getLastD x = l₂.getLastD x := by
  induction l₁ with
  | nil => rfl
  | cons a as ih =>
    rw [List.cons_append, getLastD_cons_of_ne_nil (by simp [h]) a x, ih]

/-- The part after the last delimiter occurrence contains no further
occurrence of the delimiter. Fuel-indexed for the induction. -/
theorem splitFirst_getLastD_jsSplit {d : List α} (hd : d ≠ []) :
    ∀ (n : Nat) (s : List α), s.length ≤ n →
      splitFirst d ((jsSplit d s).getLastD []) = none := by
  intro n
  induction n with
  | zero =>
    intro s hs
    have hnil : s = [] := List.length_eq_zero.mp (Nat.le_zero.mp hs)
    subst hnil
    rw [jsSplit_of_none hd (splitFirst_nil_of_ne hd)]
    exact splitFirst_nil_of_ne hd
  | succ n ih =>
    intro s hs
    cases hsp : splitFirst d s with
    | none =>
      rw [jsSplit_of_none hd hsp]
      exact hsp
    | some pr =>
      rw [jsSplit_of_some hd hsp]
      rw [getLastD_cons_of_ne_nil jsSplit_ne_nil]
      have hlt := splitFirst_snd_lt hd hsp
      exact ih pr.2 (by omega)

theorem splitFirst_jsSplit_tail {d : List α} (hd : d ≠ []) (s : List α) :
    splitFirst d ((jsSplit d s).getLastD []) = none :=
  splitFirst_getLastD_jsSplit hd s.length s le_rfl

/-- Splitting `a ++ b` first splits all of `a` except its tail part, then
splits the tail followed by `b`. This is the heart of chunk-boundary
independence of the line framer. -/
theorem jsSplit_append {d : List α} (hd : d ≠ []) (a b : List α) :
    jsSplit d (a ++ b) =
      (jsSplit d a).dropLast ++ jsSplit d ((jsSplit d a).getLastD [] ++ b) := by
  suffices h : ∀ (n : Nat) (a b : List α), a.length ≤ n →
      jsSplit d (a ++ b) =
        (jsSplit d a).dropLast ++ jsSplit d ((jsSplit d a).getLastD [] ++ b) from
    h a.length a b le_rfl
  intro n
  induction n with
  | zero =>
    intro a b ha
    have hnil : a = [] := List.length_eq_zero.mp (Nat.le_zero.mp ha)
    subst hnil
    rw [jsSplit_of_none hd (splitFirst_nil_of_ne hd)]
    simp [List.getLastD]
  | succ n ih =>
    intro a b ha
    cases hsp : splitFirst d a with
    | none =>
      rw [jsSplit_of_none hd hsp]
      simp [List.getLastD]
    | some pr =>
      obtain ⟨p, q⟩ := pr
      have happ : splitFirst d (a ++ b) = some (p, q ++ b) := splitFirst_append hd hsp
      rw [jsSplit_of_some hd hsp, jsSplit_of_some hd happ]
      have hq : q.length ≤ n := by
        have := splitFirst_snd_lt hd hsp
        simp only at this
        omega
      rw [ih q b hq]
      rw [dropLast_cons_of_ne_nil jsSplit_ne_nil, getLastD_cons_of_ne_nil jsSplit_ne_nil]
      simp

end SplitUtils

/-! ## LineFramer (`makeLineTransformer`)

Source (all six front ends, e.g. `test.tsx` lines 84-95):

```js
function makeLineTransformer(delimiter = "\r") {
  let buffer = "";
  return new TransformStream({
    transform(chunk, controller) {
      buffer += chunk;
      const parts = buffer.split(delimiter);
      buffer = parts.pop() ?? "";
      for (const p of parts) controller.enqueue(p);
    },
    flush(controller) { if (buffer) controller.enqueue(buffer); }
  });
}
```
-/

/-- One `transform` call: append the chunk to the carry buffer, emit every
part before the last, keep the last part as the new buffer. -/
def transformStep (d : List Char) (buf chunk : List Char) :
    List (List Char) × List Char :=
  let parts := jsSplit d (buf ++ chunk)
  (parts.dropLast, parts.getLastD [])

/-- Feed a list of chunks through the transformer, collecting all emitted
lines and the final buffer. -/
def runChunks (d : List Char) : List Char → List (List Char) → List (List Char) × List Char
  | buf, [] => ([], buf)
  | buf, c :: cs =>
    let st := transformStep d buf c
    let rest := runChunks d st.2 cs
    (st.1 ++ rest.1, rest.2)

/-- All lines emitted for a chunked stream: run every chunk, then `flush`,
which emits the buffer only when it is non-empty. -/
def framerOutput (d : List Char) (chunks : List (List Char)) : List (List Char) :=
  let r := runChunks d [] chunks
  r.1 ++ (if r.2 = [] then [] else [r.2])

/-- Modelled from the spec: the lines obtained by splitting the whole text by
the delimiter — every delimiter-separated segment in order, with a non-empty
trailing tail emitted as one final line and an empty tail emitting nothing. -/
def specLines (d text : List Char) : List (List Char) :=
  let parts := jsSplit d text
  parts.dropLast ++ (if parts.getLastD [] = [] then [] else [parts.getLastD []])

theorem runChunks_eq {d : List Char} (hd : d ≠ []) :
    ∀ (chunks : List (List Char)) (buf : List Char), splitFirst d buf = none →
      runChunks d buf chunks =
        ((jsSplit d (buf ++ chunks.flatten)).dropLast,
          (jsSplit d (buf ++ chunks.flatten)).getLastD []) := by
  intro chunks
  induction chunks with
  | nil =>
    intro buf hbuf
    rw [List.flatten_nil, List.append_nil, jsSplit_of_none hd hbuf]
    simp [runChunks, List.getLastD]
  | cons c cs ih =>
    intro buf hbuf
    have hbuf' : splitFirst d ((jsSplit d (buf ++ c)).getLastD []) = none :=
      splitFirst_jsSplit_tail hd (buf ++ c)
    have ihh := ih ((jsSplit d (buf ++ c)).getLastD []) hbuf'
    simp only [runChunks, transformStep]
    rw [ihh]
    have happ := jsSplit_append hd (buf ++ c) cs.flatten
    have hassoc : buf ++ (c :: cs).flatten = (buf ++ c) ++ cs.flatten := by
      rw [List.flatten_cons, ← List.append_assoc]
    rw [hassoc, happ]
    have hne : jsSplit d ((jsSplit d (buf ++ c)).getLastD [] ++ cs.flatten) ≠ [] :=
      jsSplit_ne_nil
    rw [Prod.mk.injEq]
    exact ⟨(dropLast_append_ne_nil hne).symm, (getLastD_append_ne_nil hne []).symm⟩

/-- C1: for every non-empty delimiter and every way of cutting a text into
in-order non-empty chunks, feeding the chunks through the line framer
(transform per chunk, flush at stream end) emits exactly the lines obtained
by splitting the whole text by the delimiter: every delimiter-separated
segment in order (empty segments included, delimiters split across chunk
boundaries reassembled), with a non-empty trailing tail emitted as one final
line and nothing emitted for an empty tail. -/
theorem framer_chunk_boundary_independence (d : List Char) (hd : d ≠ [])
    (chunks : List (List Char)) (hchunks : ∀ c ∈ chunks, c ≠ []) :
    framerOutput d chunks = specLines d chunks.flatten := by
  have h0 : splitFirst d ([] : List Char) = none := splitFirst_nil_of_ne hd
  unfold framerOutput specLines
  rw [runChunks_eq hd chunks [] h0]
  simp

/-- Witness for C1 at a concrete input: the delimiter `CR` split across two
chunks, an empty segment, and a trailing tail without delimiter. -/
theorem framer_chunk_boundary_independence_witness :
    (['\r'] : List Char) ≠ [] ∧
      (∀ c ∈ [['a', '\r'], ['\r', 'b'], ['c']], c ≠ ([] : List Char)) ∧
      framerOutput ['\r'] [['a', '\r'], ['\r', 'b'], ['c']] =
        specLines ['\r'] (List.flatten [['a', '\r'], ['\r', 'b'], ['c']]) :=
  ⟨by decide, by decide,
    framer_chunk_boundary_independence ['\r'] (by decide) _ (by decide)⟩

/-! ## Trimming and digit utilities

JavaScript `String.prototype.trim` strips whitespace from both ends; the
telegrams only ever contain ASCII, so the ASCII whitespace characters
suffice. -/

/-- Whitespace as far as `trim` and the regex class `\s` are concerned. -/
def isJsWs (c : Char) : Bool :=
  c == ' ' || c == '\t' || c == '\n' || c == '\r' || c == '\x0b' || c == '\x0c'

/-- JavaScript `s.trim()`. -/
def jsTrim (s : List Char) : List Char :=
  ((s.dropWhile isJsWs).reverse.dropWhile isJsWs).reverse

/-- Numeric value of a digit string, as JavaScript `Number`/`parseInt` yield
on an all-digits input. -/
def digitsToNat (l : List Char) : Nat :=
  l.foldl (fun acc c => acc * 10 + (c.toNat - '0'.toNat)) 0

theorem getLast?_mem' {β : Type*} : ∀ {l : List β} {c : β}, l.getLast? = some c → c ∈ l := by
  intro l
  induction l with
  | nil => intro c h; exact absurd h (by simp)
  | cons a as ih =>
    intro c h
    cases as with
    | nil =>
      simp only [List.getLast?_singleton, Option.some.injEq] at h
      simp [h]
    | cons b bs =>
      rw [List.getLast?_cons_cons] at h
      exact List.mem_cons_of_mem a (ih h)

theorem jsTrim_eq_self {s : List Char}
    (h1 : ∀ c, s.head? = some c → isJsWs c = false)
    (h2 : ∀ c, s.getLast? = some c → isJsWs c = false) : jsTrim s = s := by
  unfold jsTrim
  have hdw : s.dropWhile isJsWs = s := by
    cases s with
    | nil => rfl
    | cons c cs =>
      rw [List.dropWhile_cons, if_neg]
      rw [h1 c rfl]
      simp
  rw [hdw]
  have hrv : s.reverse.dropWhile isJsWs = s.reverse := by
    cases hs : s.reverse with
    | nil => rfl
    | cons c cs =>
      have hlast : s.getLast? = some c := by
        rw [List.getLast?_eq_head?_reverse, hs]
        rfl
      rw [List.dropWhile_cons, if_neg]
      rw [h2 c hlast]
      simp
  rw [hrv, List.reverse_reverse]

theorem not_ws_of_digit {c : Char} (h : c.isDigit = true) : isJsWs c = false := by
  by_contra hne
  have hw : isJsWs c = true := by
    cases hcw : isJsWs c
    · exact absurd hcw hne
    · rfl
  unfold isJsWs at hw
  simp only [Bool.or_eq_true, beq_iff_eq] at hw
  rcases hw with ((((rfl | rfl) | rfl) | rfl) | rfl) | rfl <;> exact absurd h (by decide)

theorem not_sign_of_digit {c : Char} (h : c.isDigit = true) : (c = '+' ∨ c = '-') → False := by
  rintro (rfl | rfl) <;> exact absurd h (by decide)

theorem not_sep_of_digit {c : Char} (h : c.isDigit = true) : (c = '.' ∨ c = ',') → False := by
  rintro (rfl | rfl) <;> exact absurd h (by decide)

/-- Trimming is a no-op on a list of digits, optionally decorated at either
end with non-whitespace characters. Stated for the use sites: head and last
characters are known to be non-whitespace. -/
theorem jsTrim_digits {ds : List Char} (hne : ds ≠ [])
    (hd : ds.all Char.isDigit = true) : jsTrim ds = ds := by
  apply jsTrim_eq_self
  · intro c hc
    apply not_ws_of_digit
    apply List.all_eq_true.mp hd
    cases ds with
    | nil => exact absurd rfl hne
    | cons a as =>
      simp only [List.head?_cons, Option.some.injEq] at hc
      simp [hc]
  · intro c hc
    exact not_ws_of_digit (List.all_eq_true.mp hd c (getLast?_mem' hc))

/-! ## Generic decimal parser (`parseWeight` and `weightRegex`)

Source (`test.tsx` lines 79-83, `part_002` lines 45-49):

```js
const weightRegex = /([+\-]?\d{1,6}(?:[.,]\d{1,3})?)/;
function parseWeight(raw) {
  const m = raw.trim().match(weightRegex);
  return m ? m[1].replace(",", ".") : null;
}
```

The regex is unanchored: `match` scans positions left to right and returns
the leftmost match; at a given position the quantifiers are greedy
(`\d{1,6}` takes up to 6 digits, the optional fraction group takes a
separator only when followed by a digit, then up to 3 digits). `replace`
with a string pattern replaces only the first occurrence. -/

/-- Greedily take at most `n` leading digits. -/
def takeDigitsUpTo (n : Nat) (s : List Char) : List Char × List Char :=
  match n, s with
  | 0, s => ([], s)
  | _ + 1, [] => ([], [])
  | n + 1, c :: rest =>
    if c.isDigit then
      let pr := takeDigitsUpTo n rest
      (c :: pr.1, pr.2)
    else ([], c :: rest)

/-- Match `\d{1,6}(?:[.,]\d{1,3})?` at the current position. -/
def matchNumCore (s : List Char) : Option (List Char) :=
  let pr := takeDigitsUpTo 6 s
  if pr.1 = [] then none
  else
    match pr.2 with
    | sep :: r2 =>
      if sep = '.' ∨ sep = ',' then
        let fr := takeDigitsUpTo 3 r2
        if fr.1 = [] then some pr.1 else some (pr.1 ++ sep :: fr.1)
      else some pr.1
    | [] => some pr.1

/-- Match the full pattern `[+\-]?\d{1,6}(?:[.,]\d{1,3})?` at the current
position (with the regex backtracking over the optional sign). -/
def tryWeightAt : List Char → Option (List Char)
  | [] => none
  | c :: rest =>
    if c = '+' ∨ c = '-' then (matchNumCore rest).map (fun m => c :: m)
    else matchNumCore (c :: rest)

/-- Leftmost match of the weight pattern anywhere in the line. -/
def findWeight : List Char → Option (List Char)
  | [] => none
  | c :: rest =>
    match tryWeightAt (c :: rest) with
    | some m => some m
    | none => findWeight rest

/-- JavaScript `s.replace(",", ".")`: replace the first comma only. -/
def replaceFirstComma : List Char → List Char
  | [] => []
  | c :: r => if c = ',' then '.' :: r else c :: replaceFirstComma r

/-- The source's `parseWeight`: trim, find the leftmost regex match,
normalise a decimal comma to a decimal point. -/
def parseWeight (raw : List Char) : Option (List Char) :=
  (findWeight (jsTrim raw)).map replaceFirstComma

theorem ne_comma_of_digit {c : Char} (h : c.isDigit = true) : c ≠ ',' := by
  intro hc
  subst hc
  exact absurd h (by decide)

theorem replaceFirstComma_no_comma :
    ∀ {l : List Char}, (∀ c ∈ l, c ≠ ',') → replaceFirstComma l = l := by
  intro l
  induction l with
  | nil => intro _; rfl
  | cons c r ih =>
    intro h
    rw [replaceFirstComma, if_neg (h c (List.mem_cons_self c r))]
    rw [ih (fun x hx => h x (List.mem_cons_of_mem c hx))]

theorem replaceFirstComma_append_comma :
    ∀ {x : List Char} (y : List Char), (∀ c ∈ x, c ≠ ',') →
      replaceFirstComma (x ++ ',' :: y) = x ++ '.' :: y := by
  intro x
  induction x with
  | nil => intro y _; simp [replaceFirstComma]
  | cons c r ih =>
    intro y h
    rw [List.cons_append, replaceFirstComma, if_neg (h c (List.mem_cons_self c r))]
    rw [ih y (fun z hz => h z (List.mem_cons_of_mem c hz)), List.cons_append]

theorem takeDigitsUpTo_all_digits :
    ∀ (ds : List Char), ds.all Char.isDigit = true →
      ∀ n, takeDigitsUpTo n ds = (ds.take n, ds.drop n) := by
  intro ds
  induction ds with
  | nil =>
    intro _ n
    cases n <;> simp [takeDigitsUpTo]
  | cons c rest ih =>
    intro h n
    rw [List.all_cons, Bool.and_eq_true] at h
    cases n with
    | zero => simp [takeDigitsUpTo]
    | succ m =>
      simp only [takeDigitsUpTo, h.1, if_true]
      rw [ih h.2 m]
      simp [List.take_succ_cons, List.drop_succ_cons]

theorem takeDigitsUpTo_boundary :
    ∀ (a : List Char), a.all Char.isDigit = true →
      ∀ (n : Nat), a.length ≤ n →
      ∀ (b : List Char), (∀ c, b.head? = some c → c.isDigit = false) →
      takeDigitsUpTo n (a ++ b) = (a, b) := by
  intro a
  induction a with
  | nil =>
    intro _ n _ b hb
    cases n with
    | zero => simp [takeDigitsUpTo]
    | succ m =>
      cases b with
      | nil => simp [takeDigitsUpTo]
      | cons c r =>
        have hc := hb c rfl
        simp [takeDigitsUpTo, hc]
  | cons x a' ih =>
    intro h n hn b hb
    rw [List.all_cons, Bool.and_eq_true] at h
    cases n with
    | zero => simp at hn
    | succ m =>
      have hm : a'.length ≤ m := by
        simp only [List.length_cons] at hn
        omega
      simp only [List.cons_append, takeDigitsUpTo, h.1, if_true, List.append_eq]
      rw [ih h.2 m hm b hb]

/-- C10: the generic decimal pattern never rejects an over-long numeric run;
it truncates. An all-digit run longer than 6 yields its first 6 digits; a
fraction longer than 3 digits is cut to its first 3 digits (with the
separator normalised to a point). In particular `1234567 -> 123456` and
`12.34567 -> 12.345`. -/
theorem parseWeight_truncates_overlong_runs :
    (∀ ds : List Char, ds.all Char.isDigit = true → 6 < ds.length →
        parseWeight ds = some (ds.take 6))
    ∧ (∀ (ds1 : List Char) (sep : Char) (ds2 : List Char),
        ds1 ≠ [] → ds1.length ≤ 6 → ds1.all Char.isDigit = true →
        (sep = '.' ∨ sep = ',') → ds2.all Char.isDigit = true → 3 < ds2.length →
        parseWeight (ds1 ++ sep :: ds2) = some (ds1 ++ '.' :: ds2.take 3))
    ∧ parseWeight ['1', '2', '3', '4', '5', '6', '7'] = some ['1', '2', '3', '4', '5', '6']
    ∧ parseWeight ['1', '2', '.', '3', '4', '5', '6', '7'] = some ['1', '2', '.', '3', '4', '5'] := by
  refine ⟨?_, ?_, by decide, by decide⟩
  · intro ds hall hlen
    have hne : ds ≠ [] := by
      intro h
      rw [h] at hlen
      simp at hlen
    obtain ⟨c, rest, rfl⟩ : ∃ c rest, ds = c :: rest := by
      cases ds with
      | nil => exact absurd rfl hne
      | cons c r => exact ⟨c, r, rfl⟩
    have hcd : c.isDigit = true := List.all_eq_true.mp hall c (List.mem_cons_self c rest)
    have htk := takeDigitsUpTo_all_digits (c :: rest) hall 6
    have hne6 : (c :: rest).take 6 ≠ [] := by simp [List.take_succ_cons]
    obtain ⟨e, r2, hdrop⟩ : ∃ e r2, (c :: rest).drop 6 = e :: r2 := by
      have hlen6 : ((c :: rest).drop 6).length ≠ 0 := by
        rw [List.length_drop]
        omega
      cases hd6 : (c :: rest).drop 6 with
      | nil => rw [hd6] at hlen6; simp at hlen6
      | cons e r2 => exact ⟨e, r2, rfl⟩
    have hed : e.isDigit = true := by
      apply List.all_eq_true.mp hall
      apply List.mem_of_mem_drop (n := 6)
      rw [hdrop]
      exact List.mem_cons_self e r2
    have hnsep : ¬ (e = '.' ∨ e = ',') := fun h => not_sep_of_digit hed h
    have hcore : matchNumCore (c :: rest) = some ((c :: rest).take 6) := by
      unfold matchNumCore
      rw [htk]
      simp only
      rw [if_neg hne6, hdrop]
      split <;> simp_all
    have htry : tryWeightAt (c :: rest) = some ((c :: rest).take 6) := by
      simp only [tryWeightAt]
      rw [if_neg (fun hsign => not_sign_of_digit hcd hsign), hcore]
    have hfw : findWeight (c :: rest) = some ((c :: rest).take 6) := by
      simp only [findWeight]
      rw [htry]
    unfold parseWeight
    rw [jsTrim_digits hne hall, hfw]
    rw [Option.map_some']
    rw [replaceFirstComma_no_comma
      (fun x hx => ne_comma_of_digit (List.all_eq_true.mp hall x (List.mem_of_mem_take hx)))]
  · intro ds1 sep ds2 hne1 hlen1 hall1 hsep hall2 hlen2
    have hne2 : ds2 ≠ [] := by
      intro h
      rw [h] at hlen2
      simp at hlen2
    have hsepd : sep.isDigit = false := by
      rcases hsep with rfl | rfl <;> decide
    obtain ⟨a, as, rfl⟩ : ∃ a as, ds1 = a :: as := by
      cases ds1 with
      | nil => exact absurd rfl hne1
      | cons a as => exact ⟨a, as, rfl⟩
    have hcd : a.isDigit = true := List.all_eq_true.mp hall1 a (List.mem_cons_self a as)
    have htrim : jsTrim ((a :: as) ++ sep :: ds2) = (a :: as) ++ sep :: ds2 := by
      apply jsTrim_eq_self
      · intro c hc
        rw [List.cons_append, List.head?_cons] at hc
        injection hc with hc
        subst hc
        exact not_ws_of_digit hcd
      · intro c hc
        rw [List.getLast?_append] at hc
        have hcons : (sep :: ds2).getLast? = ds2.getLast? := by
          cases ds2 with
          | nil => exact absurd rfl hne2
          | cons b bs => rw [List.getLast?_cons_cons]
        rw [hcons] at hc
        cases hl : ds2.getLast? with
        | none =>
          exact absurd (List.getLast?_eq_none_iff.mp hl) hne2
        | some x =>
          rw [hl] at hc
          have hor : (some x).or ((a :: as).getLast?) = some x := rfl
          rw [hor] at hc
          injection hc with hc
          subst hc
          exact not_ws_of_digit (List.all_eq_true.mp hall2 x (getLast?_mem' hl))
    have hboundary :=
      takeDigitsUpTo_boundary (a :: as) hall1 6 hlen1 (sep :: ds2)
        (by intro c hc; injection hc with hc; subst hc; exact hsepd)
    have htk2 := takeDigitsUpTo_all_digits ds2 hall2 3
    have hne3 : ds2.take 3 ≠ [] := by
      intro h
      have : (ds2.take 3).length = 0 := by rw [h]; rfl
      rw [List.length_take] at this
      omega
    have hcore : matchNumCore ((a :: as) ++ sep :: ds2) =
        some ((a :: as) ++ sep :: ds2.take 3) := by
      unfold matchNumCore
      rw [hboundary]
      simp only
      rw [if_neg (by simp : ¬ (a :: as) = [])]
      split
      next heq =>
        rw [htk2]
        simp only
        rw [if_neg hne3]
      next heq => exact absurd hsep heq
    have htry : tryWeightAt ((a :: as) ++ sep :: ds2) =
        some ((a :: as) ++ sep :: ds2.take 3) := by
      rw [List.cons_append]
      simp only [tryWeightAt]
      rw [if_neg (fun hsign => not_sign_of_digit hcd hsign)]
      rw [← List.cons_append, hcore]
    have hfw : findWeight ((a :: as) ++ sep :: ds2) =
        some ((a :: as) ++ sep :: ds2.take 3) := by
      rw [List.cons_append]
      simp only [findWeight]
      rw [← List.cons_append, htry]
    unfold parseWeight
    rw [htrim, hfw, Option.map_some']
    have hnc1 : ∀ c ∈ a :: as, c ≠ ',' :=
      fun c hc => ne_comma_of_digit (List.all_eq_true.mp hall1 c hc)
    rcases hsep with rfl | rfl
    · rw [replaceFirstComma_no_comma]
      intro c hc
      rw [List.mem_append] at hc
      rcases hc with hc | hc
      · exact hnc1 c hc
      · rcases List.mem_cons.mp hc with rfl | hc
        · decide
        · exact ne_comma_of_digit
            (List.all_eq_true.mp hall2 c (List.mem_of_mem_take hc))
    · rw [replaceFirstComma_append_comma _ hnc1]

/-- Witness for C10: a seven-digit run is truncated to its first six digits. -/
theorem parseWeight_truncates_overlong_runs_witness :
    (['1', '2', '3', '4', '5', '6', '7'] : List Char).all Char.isDigit = true ∧
      6 < (['1', '2', '3', '4', '5', '6', '7'] : List Char).length ∧
      parseWeight ['1', '2', '3', '4', '5', '6', '7'] = some ['1', '2', '3', '4', '5', '6'] :=
  ⟨by decide, by decide,
    parseWeight_truncates_overlong_runs.1 ['1', '2', '3', '4', '5', '6', '7']
      (by decide) (by decide)⟩

/-! ## TelegramDecoder family

`parseLineByMode` (`test3.tsx` lines 65-93) tries, in order: the flagged
fixed-digit telegram `^([PNTBR])\s?(\d{5})$/i`, the bare fixed-digit telegram
`^(\d{5})$`, and the generic decimal fallback (the same pattern as
`parseWeight`). `parseLaTorre` (`test4.tsx` lines 66-73) recognises the
explicit-prefix telegram `^D(\d{6})$/i` and converts grams to kilograms.

The module-level constants of `test3.tsx` are the parser mode
(`const MODE: Mode = "AUTO"`) and the bare-five-digit assumption
(`const ASSUME_5DIGITS_IS = "GRAMS"`); both are deployment-time
configuration, so the embedding passes them as parameters, with the source's
values recorded below. -/

inductive Mode
  | AUTO
  | GRAMS5_P
  | GRAMS5
  | KG5
deriving DecidableEq

inductive Assume5
  | GRAMS
  | KG
deriving DecidableEq

inductive FormatTag
  | GRAMS5_P
  | GRAMS5
  | KG5
  | GENERIC
deriving DecidableEq

/-- The decoded result `{ ok: true, kg, source, flag? }` of `parseLineByMode`. -/
structure ParseResult where
  kg : ℚ
  source : FormatTag
  flag : Option Char
deriving DecidableEq

/-- Source values of the configuration constants in `test3.tsx`. -/
def MODE : Mode := Mode.AUTO

def ASSUME_5DIGITS_IS : Assume5 := Assume5.GRAMS

def FACTOR_GRAMS : ℚ := 1 / 1000

def FACTOR_KG : ℚ := 1

def flagChars : List Char := ['P', 'N', 'T', 'B', 'R', 'p', 'n', 't', 'b', 'r']

def digits5 (l : List Char) : Bool := l.length == 5 && l.all Char.isDigit

/-- The anchored regex `^([PNTBR])\s?(\d{5})$/i`: flag letter, at most one
whitespace character, exactly five digits. -/
def matchFlagged : List Char → Option (Char × List Char)
  | [] => none
  | c :: rest =>
    if c ∈ flagChars then
      match rest with
      | [] => none
      | sp :: rest2 =>
        if isJsWs sp then (if digits5 rest2 then some (c.toUpper, rest2) else none)
        else if digits5 rest then some (c.toUpper, rest) else none
    else none

/-- The anchored regex `^(\d{5})$`. -/
def matchOnly5 (l : List Char) : Option (List Char) :=
  if digits5 l then some l else none

/-- JavaScript `Number` on the strings produced by the generic pattern
(optional sign, integer digits, optional point and fraction digits). -/
def qOfParts (s : List Char) : ℚ :=
  match splitFirst ['.'] s with
  | some pr => (digitsToNat pr.1 : ℚ) + (digitsToNat pr.2 : ℚ) / (10 : ℚ) ^ pr.2.length
  | none => (digitsToNat s : ℚ)

def qOfNumStr : List Char → ℚ
  | [] => qOfParts []
  | c :: r =>
    if c = '+' then qOfParts r
    else if c = '-' then - qOfParts r
    else qOfParts (c :: r)

/-- `parseLineByMode` from `test3.tsx`: flagged five-digit telegram first,
then bare five digits (scaled according to the mode and the bare-digit
assumption), then the generic decimal fallback. -/
def parseLineByMode (rawIn : List Char) (mode : Mode) (assume5 : Assume5) :
    Option ParseResult :=
  let raw := jsTrim rawIn
  match matchFlagged raw with
  | some pr =>
    some ⟨(digitsToNat pr.2 : ℚ) * FACTOR_GRAMS, FormatTag.GRAMS5_P, some pr.1⟩
  | none =>
    match matchOnly5 raw with
    | some ds =>
      if mode = Mode.KG5 ∨ (mode = Mode.AUTO ∧ assume5 = Assume5.KG) then
        some ⟨(digitsToNat ds : ℚ) * FACTOR_KG, FormatTag.KG5, none⟩
      else some ⟨(digitsToNat ds : ℚ) * FACTOR_GRAMS, FormatTag.GRAMS5, none⟩
    | none =>
      match findWeight raw with
      | some m => some ⟨qOfNumStr (replaceFirstComma m), FormatTag.GENERIC, none⟩
      | none => none

/-- `parseLaTorre` from `test4.tsx`: the explicit-prefix telegram
`^D(\d{6})$/i`, decoded as digits divided by 1000 (grams to kilograms),
with no configurable scale factor in sight. -/
def digits6 (l : List Char) : Bool := l.length == 6 && l.all Char.isDigit

def parseLaTorre (rawIn : List Char) : Option ℚ :=
  match jsTrim rawIn with
  | [] => none
  | c :: rest =>
    if (c == 'D' || c == 'd') && digits6 rest then
      some ((digitsToNat rest : ℚ) / 1000)
    else none

theorem getLast?_cons_of_ne_nil {β : Type*} {l : List β} (h : l ≠ []) (x : β) :
    (x :: l).getLast? = l.getLast? := by
  cases l with
  | nil => exact absurd rfl h
  | cons a as => rw [List.getLast?_cons_cons]

theorem digits5_parts {ds : List Char} (h : digits5 ds = true) :
    ds.length = 5 ∧ ds.all Char.isDigit = true := by
  unfold digits5 at h
  rw [Bool.and_eq_true, beq_iff_eq] at h
  exact h

theorem digits6_parts {ds : List Char} (h : digits6 ds = true) :
    ds.length = 6 ∧ ds.all Char.isDigit = true := by
  unfold digits6 at h
  rw [Bool.and_eq_true, beq_iff_eq] at h
  exact h

theorem not_ws_of_flag {f : Char} (h : f ∈ flagChars) : isJsWs f = false := by
  fin_cases h <;> decide

theorem digit_not_flag {c : Char} (h : c.isDigit = true) : c ∉ flagChars := by
  intro hf
  fin_cases hf <;> exact absurd h (by decide)

/-- A character followed by anything ending in a digit run survives `trim`
unchanged, provided the leading character is not whitespace. -/
theorem jsTrim_cons_append_digits {f : Char} (hf : isJsWs f = false)
    (mid ds : List Char) (hds : ds ≠ []) (hall : ds.all Char.isDigit = true) :
    jsTrim (f :: (mid ++ ds)) = f :: (mid ++ ds) := by
  apply jsTrim_eq_self
  · intro c hc
    rw [List.head?_cons] at hc
    injection hc with hc
    subst hc
    exact hf
  · intro c hc
    rw [getLast?_cons_of_ne_nil (by simp [hds]) f, List.getLast?_append] at hc
    cases hl : ds.getLast? with
    | none => exact absurd (List.getLast?_eq_none_iff.mp hl) hds
    | some x =>
      rw [hl] at hc
      have hor : (Option.some x).or mid.getLast? = some x := rfl
      rw [hor] at hc
      injection hc with hc
      subst hc
      exact not_ws_of_digit (List.all_eq_true.mp hall x (getLast?_mem' hl))

theorem matchFlagged_space {f : Char} (hf : f ∈ flagChars) {sp : Char}
    (hsp : isJsWs sp = true) {ds : List Char} (hds : digits5 ds = true) :
    matchFlagged (f :: sp :: ds) = some (f.toUpper, ds) := by
  simp [matchFlagged, hf, hsp, hds]

theorem matchFlagged_nospace {f : Char} (hf : f ∈ flagChars) {ds : List Char}
    (hds : digits5 ds = true) :
    matchFlagged (f :: ds) = some (f.toUpper, ds) := by
  obtain ⟨hlen, hall⟩ := digits5_parts hds
  obtain ⟨d, rest2, rfl⟩ : ∃ d r, ds = d :: r := by
    cases ds with
    | nil => simp at hlen
    | cons d r => exact ⟨d, r, rfl⟩
  have hd : d.isDigit = true := List.all_eq_true.mp hall d (List.mem_cons_self d rest2)
  simp [matchFlagged, hf, not_ws_of_digit hd, hds]

theorem matchFlagged_none_digits {ds : List Char} (hall : ds.all Char.isDigit = true) :
    matchFlagged ds = none := by
  cases ds with
  | nil => rfl
  | cons c rest =>
    have hc : c ∉ flagChars :=
      digit_not_flag (List.all_eq_true.mp hall c (List.mem_cons_self c rest))
    simp [matchFlagged, hc]

/-- C6: a flagged fixed-digit telegram (status letter among P, N, T, B, R,
optional single space, exactly five digits) decodes to the digits times the
configured scale factor 0.001 under every mode; a bare five-digit telegram
decodes to digits times 0.001 under the bare-digits-are-grams assumption and
to digits times 1 under the already-scaled assumption. In particular
`P 12345` yields 12.345. -/
theorem telegram_fixed_digit_decode :
    (∀ (f : Char) (ds : List Char) (mode : Mode) (assume5 : Assume5),
        f ∈ flagChars → digits5 ds = true →
        parseLineByMode (f :: ' ' :: ds) mode assume5
            = some ⟨(digitsToNat ds : ℚ) / 1000, FormatTag.GRAMS5_P, some f.toUpper⟩
          ∧ parseLineByMode (f :: ds) mode assume5
            = some ⟨(digitsToNat ds : ℚ) / 1000, FormatTag.GRAMS5_P, some f.toUpper⟩)
    ∧ (∀ ds : List Char, digits5 ds = true →
        parseLineByMode ds Mode.AUTO Assume5.GRAMS
            = some ⟨(digitsToNat ds : ℚ) / 1000, FormatTag.GRAMS5, none⟩
          ∧ parseLineByMode ds Mode.AUTO Assume5.KG
            = some ⟨(digitsToNat ds : ℚ), FormatTag.KG5, none⟩)
    ∧ parseLineByMode ['P', ' ', '1', '2', '3', '4', '5'] Mode.AUTO Assume5.GRAMS
        = some ⟨(12345 : ℚ) / 1000, FormatTag.GRAMS5_P, some 'P'⟩ := by
  refine ⟨?_, ?_, ?_⟩
  · intro f ds mode assume5 hf hds
    obtain ⟨hlen, hall⟩ := digits5_parts hds
    have hdsne : ds ≠ [] := by
      intro h
      rw [h] at hlen
      simp at hlen
    have htrim1 : jsTrim (f :: ' ' :: ds) = f :: ' ' :: ds := by
      have := jsTrim_cons_append_digits (not_ws_of_flag hf) [' '] ds hdsne hall
      simpa using this
    have htrim2 : jsTrim (f :: ds) = f :: ds := by
      have := jsTrim_cons_append_digits (not_ws_of_flag hf) [] ds hdsne hall
      simpa using this
    constructor
    · simp [parseLineByMode, htrim1, @matchFlagged_space f hf ' ' (by decide) ds hds,
        FACTOR_GRAMS, div_eq_mul_inv]
    · simp [parseLineByMode, htrim2, matchFlagged_nospace hf hds,
        FACTOR_GRAMS, div_eq_mul_inv]
  · intro ds hds
    obtain ⟨hlen, hall⟩ := digits5_parts hds
    have hdsne : ds ≠ [] := by
      intro h
      rw [h] at hlen
      simp at hlen
    have htrim : jsTrim ds = ds := jsTrim_digits hdsne hall
    have hmf : matchFlagged ds = none := matchFlagged_none_digits hall
    have hm5 : matchOnly5 ds = some ds := by
      unfold matchOnly5
      rw [if_pos hds]
    constructor
    · simp [parseLineByMode, htrim, hmf, hm5, FACTOR_GRAMS, div_eq_mul_inv]
    · simp [parseLineByMode, htrim, hmf, hm5, FACTOR_KG]
  · have h := @matchFlagged_space 'P' (by decide) ' ' (by decide)
      ['1', '2', '3', '4', '5'] (by decide)
    have hdig : digitsToNat ['1', '2', '3', '4', '5'] = 12345 := by decide
    have hup : ('P' : Char).toUpper = 'P' := by decide
    have htr : jsTrim ['P', ' ', '1', '2', '3', '4', '5'] = ['P', ' ', '1', '2', '3', '4', '5'] := by
      decide
    simp [parseLineByMode, htr, h, hdig, hup, FACTOR_GRAMS, div_eq_mul_inv]

/-- Witness for C6: `N12345` (no space) decodes under every mode to 12.345
with flag `N`. -/
theorem telegram_fixed_digit_decode_witness :
    ('N' ∈ flagChars) ∧ digits5 ['1', '2', '3', '4', '5'] = true ∧
      parseLineByMode ['N', '1', '2', '3', '4', '5'] Mode.GRAMS5 Assume5.GRAMS
        = some ⟨(digitsToNat ['1', '2', '3', '4', '5'] : ℚ) / 1000,
            FormatTag.GRAMS5_P, some 'N'⟩ :=
  ⟨by decide, by decide,
    (telegram_fixed_digit_decode.1 'N' ['1', '2', '3', '4', '5'] Mode.GRAMS5
      Assume5.GRAMS (by decide) (by decide)).2⟩

/-- C7: the explicit-prefix decoder accepts exactly the lines whose trimmed
form is the marker letter `D` (the regex is case-insensitive, so `d` too)
followed by exactly six digits, yielding digits / 1000 with no configurable
factor involved; `D025500` decodes to 25.500; everything else is rejected. -/
theorem parseLaTorre_explicit_marker :
    (∀ (c : Char) (ds : List Char), (c = 'D' ∨ c = 'd') → digits6 ds = true →
        parseLaTorre (c :: ds) = some ((digitsToNat ds : ℚ) / 1000))
    ∧ parseLaTorre ['D', '0', '2', '5', '5', '0', '0'] = some ((25500 : ℚ) / 1000)
    ∧ (∀ s : List Char,
        (∀ (c : Char) (ds : List Char), jsTrim s = c :: ds →
          ¬((c = 'D' ∨ c = 'd') ∧ digits6 ds = true)) →
        parseLaTorre s = none) := by
  have hpos : ∀ (c : Char) (ds : List Char), (c = 'D' ∨ c = 'd') → digits6 ds = true →
      parseLaTorre (c :: ds) = some ((digitsToNat ds : ℚ) / 1000) := by
    intro c ds hc hds
    obtain ⟨hlen, hall⟩ := digits6_parts hds
    have hdsne : ds ≠ [] := by
      intro h
      rw [h] at hlen
      simp at hlen
    have hcw : isJsWs c = false := by rcases hc with rfl | rfl <;> decide
    have htrim : jsTrim (c :: ds) = c :: ds := by
      have := jsTrim_cons_append_digits hcw [] ds hdsne hall
      simpa using this
    rcases hc with rfl | rfl <;> simp [parseLaTorre, htrim, hds]
  refine ⟨hpos, ?_, ?_⟩
  · have h := hpos 'D' ['0', '2', '5', '5', '0', '0'] (Or.inl rfl) (by decide)
    have hdig : digitsToNat ['0', '2', '5', '5', '0', '0'] = 25500 := by decide
    rw [h, hdig]
    norm_num
  · intro s hnot
    have heq : parseLaTorre s = match jsTrim s with
        | [] => none
        | c :: rest =>
          if (c == 'D' || c == 'd') && digits6 rest then
            some ((digitsToNat rest : ℚ) / 1000)
          else none := rfl
    rw [heq]
    cases hts : jsTrim s with
    | nil => rfl
    | cons c rest =>
      have hcond : ¬ (((c == 'D' || c == 'd') && digits6 rest) = true) := by
        intro hcond
        rw [Bool.and_eq_true, Bool.or_eq_true, beq_iff_eq, beq_iff_eq] at hcond
        exact hnot c rest hts ⟨hcond.1, hcond.2⟩
      show (if ((c == 'D' || c == 'd') && digits6 rest) = true then
          some ((digitsToNat rest : ℚ) / 1000) else none) = none
      rw [if_neg hcond]

/-- Witness for C7: the lowercase marker `d025500` also decodes to 25.500. -/
theorem parseLaTorre_explicit_marker_witness :
    (('d' : Char) = 'D' ∨ ('d' : Char) = 'd') ∧
      digits6 ['0', '2', '5', '5', '0', '0'] = true ∧
      parseLaTorre ['d', '0', '2', '5', '5', '0', '0']
        = some ((digitsToNat ['0', '2', '5', '5', '0', '0'] : ℚ) / 1000) :=
  ⟨Or.inr rfl, by decide,
    parseLaTorre_explicit_marker.1 'd' ['0', '2', '5', '5', '0', '0']
      (Or.inr rfl) (by decide)⟩

/-- C8: the decoder tries its variants in the fixed order flagged fixed-digit,
bare fixed-digit, generic decimal, returning the first match; a line matching
the flagged variant is decoded via the scale factor and never by the generic
fallback, e.g. `P 12345` gives 12.345 tagged `GRAMS5_P` even though the
generic pattern would match `12345`. -/
theorem decoder_priority_order :
    (∀ (s : List Char) (mode : Mode) (assume5 : Assume5) (pr : Char × List Char),
        matchFlagged (jsTrim s) = some pr →
        parseLineByMode s mode assume5
          = some ⟨(digitsToNat pr.2 : ℚ) * FACTOR_GRAMS, FormatTag.GRAMS5_P, some pr.1⟩)
    ∧ (∀ (s : List Char) (mode : Mode) (assume5 : Assume5) (ds : List Char),
        matchFlagged (jsTrim s) = none → matchOnly5 (jsTrim s) = some ds →
        parseLineByMode s mode assume5
          = (if mode = Mode.KG5 ∨ (mode = Mode.AUTO ∧ assume5 = Assume5.KG) then
              some ⟨(digitsToNat ds : ℚ) * FACTOR_KG, FormatTag.KG5, none⟩
            else some ⟨(digitsToNat ds : ℚ) * FACTOR_GRAMS, FormatTag.GRAMS5, none⟩))
    ∧ (∀ (s : List Char) (mode : Mode) (assume5 : Assume5),
        matchFlagged (jsTrim s) = none → matchOnly5 (jsTrim s) = none →
        parseLineByMode s mode assume5
          = (findWeight (jsTrim s)).map
              (fun m => ⟨qOfNumStr (replaceFirstComma m), FormatTag.GENERIC, none⟩))
    ∧ (parseLineByMode ['P', ' ', '1', '2', '3', '4', '5'] Mode.AUTO Assume5.GRAMS
          = some ⟨(12345 : ℚ) / 1000, FormatTag.GRAMS5_P, some 'P'⟩
        ∧ findWeight (jsTrim ['P', ' ', '1', '2', '3', '4', '5'])
            = some ['1', '2', '3', '4', '5']
        ∧ qOfNumStr ['1', '2', '3', '4', '5'] = (12345 : ℚ)
        ∧ ((12345 : ℚ) / 1000) ≠ (12345 : ℚ)) := by
  refine ⟨?_, ?_, ?_, ?_, ?_, ?_, ?_⟩
  · intro s mode assume5 pr h
    simp [parseLineByMode, h]
  · intro s mode assume5 ds h1 h2
    simp [parseLineByMode, h1, h2]
  · intro s mode assume5 h1 h2
    simp only [parseLineByMode, h1, h2]
    cases hw : findWeight (jsTrim s) with
    | none => rfl
    | some m => rfl
  · have h := @matchFlagged_space 'P' (by decide) ' ' (by decide)
      ['1', '2', '3', '4', '5'] (by decide)
    have hdig : digitsToNat ['1', '2', '3', '4', '5'] = 12345 := by decide
    have hup : ('P' : Char).toUpper = 'P' := by decide
    have htr : jsTrim ['P', ' ', '1', '2', '3', '4', '5'] = ['P', ' ', '1', '2', '3', '4', '5'] := by
      decide
    simp [parseLineByMode, htr, h, hdig, hup, FACTOR_GRAMS, div_eq_mul_inv]
  · decide
  · have hsf : splitFirst ['.'] ['1', '2', '3', '4', '5'] = none := by decide
    have hdig : digitsToNat ['1', '2', '3', '4', '5'] = 12345 := by decide
    simp only [qOfNumStr]
    rw [if_neg (by decide : ¬ (('1' : Char) = '+')),
      if_neg (by decide : ¬ (('1' : Char) = '-'))]
    unfold qOfParts
    rw [hsf]
    show ((digitsToNat ['1', '2', '3', '4', '5'] : ℚ)) = 12345
    rw [hdig]
    norm_num
  · norm_num



/-- Witness for C8: on `P 12345` the flagged matcher fires and the decoder
returns the flagged result. -/
theorem decoder_priority_order_witness :
    matchFlagged (jsTrim ['P', ' ', '1', '2', '3', '4', '5'])
        = some ('P', ['1', '2', '3', '4', '5'])
      ∧ parseLineByMode ['P', ' ', '1', '2', '3', '4', '5'] Mode.AUTO Assume5.GRAMS
        = some ⟨(digitsToNat ['1', '2', '3', '4', '5'] : ℚ) * FACTOR_GRAMS,
            FormatTag.GRAMS5_P, some 'P'⟩ :=
  ⟨by decide,
    decoder_priority_order.1 ['P', ' ', '1', '2', '3', '4', '5'] Mode.AUTO
      Assume5.GRAMS ('P', ['1', '2', '3', '4', '5']) (by decide)⟩

/-! ## LoopbackTester (`loopbackTest`)

Source (`test.tsx` lines 187-210, `test2.tsx` lines 192-211). The echo check
is:

```js
const enc = new TextEncoder().encode(token);
if (bytes.length === 0) return false;
const hayEco = bytes.join(",").includes(enc.join(","));
```

`Uint8Array.join(",")` renders every byte in decimal and joins with commas,
and `includes` is a plain substring search on that rendering — it does not
compare byte sequences. -/

/-- `Uint8Array.prototype.join(",")`: decimal renderings joined by commas. -/
def byteJoin : List Nat → List Char
  | [] => []
  | b :: rest =>
    (Nat.repr b).toList ++ (if rest = [] then [] else ',' :: byteJoin rest)

/-- JavaScript `haystack.includes(needle)` via the leftmost-occurrence
search. -/
def containsSub (pat s : List Char) : Bool := (splitFirst pat s).isSome

/-- The loopback echo check on the written token's bytes and the bytes read
back. -/
def loopbackCheck (tokenBytes rxBytes : List Nat) : Bool :=
  if rxBytes = [] then false
  else containsSub (byteJoin tokenBytes) (byteJoin rxBytes)

theorem containsSub_iff_occurs {pat s : List Char} :
    containsSub pat s = true ↔ pat <:+: s := by
  unfold containsSub
  constructor
  · intro h
    induction s with
    | nil =>
      by_cases hp : pat <+: ([] : List Char)
      · exact hp.isInfix
      · rw [splitFirst_neg_nil hp] at h
        simp at h
    | cons c rest ih =>
      by_cases hp : pat <+: (c :: rest)
      · exact hp.isInfix
      · rw [splitFirst_neg_cons hp] at h
        rw [Option.isSome_map'] at h
        exact List.infix_cons (ih h)
  · intro h
    obtain ⟨u, v, huv⟩ := h
    induction u generalizing s with
    | nil =>
      have hp : pat <+: s := ⟨v, by simpa using huv⟩
      rw [splitFirst_pos hp]
      rfl
    | cons x u' ih =>
      subst huv
      rw [List.cons_append, List.cons_append]
      by_cases hp : pat <+: (x :: (u' ++ pat ++ v))
      · rw [splitFirst_pos hp]
        rfl
      · rw [splitFirst_neg_cons hp, Option.isSome_map']
        exact ih rfl

theorem byteJoin_cons_ne_nil {b : Nat} {rest : List Nat} (h : rest ≠ []) :
    byteJoin (b :: rest) = (Nat.repr b).toList ++ ',' :: byteJoin rest := by
  rw [byteJoin, if_neg h]

/-- `byteJoin` of a list ending in `m` ends in `byteJoin m`. -/
theorem byteJoin_append_left (l m : List Nat) (hm : m ≠ []) :
    ∃ s, byteJoin (l ++ m) = s ++ byteJoin m := by
  induction l with
  | nil => exact ⟨[], rfl⟩
  | cons b l' ih =>
    obtain ⟨s, hs⟩ := ih
    refine ⟨(Nat.repr b).toList ++ ',' :: s, ?_⟩
    rw [List.cons_append, byteJoin_cons_ne_nil (by simp [hm]), hs]
    simp

/-- `byteJoin` of a list starting with `m` starts with `byteJoin m`. -/
theorem byteJoin_append_right (m r : List Nat) :
    ∃ t, byteJoin (m ++ r) = byteJoin m ++ t := by
  induction m with
  | nil => exact ⟨byteJoin r, rfl⟩
  | cons b m' ih =>
    obtain ⟨t, ht⟩ := ih
    cases m' with
    | nil =>
      cases r with
      | nil => exact ⟨[], by simp⟩
      | cons x xs =>
        refine ⟨',' :: byteJoin (x :: xs), ?_⟩
        rw [List.cons_append, List.nil_append, byteJoin_cons_ne_nil (by simp)]
        simp [byteJoin]
    | cons y ys =>
      refine ⟨t, ?_⟩
      rw [List.cons_append, byteJoin_cons_ne_nil (by simp),
        byteJoin_cons_ne_nil (by simp), ht]
      simp

theorem byteJoin_infix_mono {tok rx : List Nat} (h : tok <:+: rx) :
    byteJoin tok <:+: byteJoin rx := by
  obtain ⟨u, v, huv⟩ := h
  by_cases htok : tok = []
  · subst htok
    simp [byteJoin, List.nil_infix]
  · have hmv : tok ++ v ≠ [] := by simp [htok]
    obtain ⟨s, hs⟩ := byteJoin_append_left u (tok ++ v) hmv
    obtain ⟨t, ht⟩ := byteJoin_append_right tok v
    refine ⟨s, t, ?_⟩
    have hrx : rx = u ++ (tok ++ v) := by rw [← huv, List.append_assoc]
    rw [hrx, hs, ht, List.append_assoc]

/-- C2 counterexample: the comma-join rendering check reports an echo for
received bytes `[176, 66, 75, 48, 13]` on the token bytes
`[76, 66, 75, 48, 13]` (the ASCII encoding of `LBK0\r`), even though the
token's byte sequence does not occur contiguously in the received bytes:
`"176,66,75,48,13"` contains the substring `"76,66,75,48,13"`. -/
theorem loopback_not_exact_byte_match :
    loopbackCheck [76, 66, 75, 48, 13] [176, 66, 75, 48, 13] = true
      ∧ ¬ ([76, 66, 75, 48, 13] : List Nat) <:+: [176, 66, 75, 48, 13] := by
  constructor
  · decide
  · decide

/-- C2 (amended): the loopback test is sound but not exact. Whenever the
token's bytes do occur contiguously in a non-empty read-back, it reports
success; and in general it reports success exactly when the comma-joined
decimal rendering of the token's bytes occurs as a substring of the
comma-joined decimal rendering of the received bytes. -/
theorem loopback_echo_check (tok rx : List Nat) (hrx : rx ≠ []) :
    (tok <:+: rx → loopbackCheck tok rx = true)
      ∧ (loopbackCheck tok rx = true ↔ byteJoin tok <:+: byteJoin rx) := by
  have hiff : loopbackCheck tok rx = true ↔ byteJoin tok <:+: byteJoin rx := by
    unfold loopbackCheck
    rw [if_neg hrx]
    exact containsSub_iff_occurs
  exact ⟨fun h => hiff.mpr (byteJoin_infix_mono h), hiff⟩

/-- Witness for C2's amended theorem: an exact echo of `LBK0\r` is detected. -/
theorem loopback_echo_check_witness :
    ([76, 66, 75, 48, 13] : List Nat) ≠ []
      ∧ ([76, 66, 75, 48, 13] : List Nat) <:+: [76, 66, 75, 48, 13]
      ∧ loopbackCheck [76, 66, 75, 48, 13] [76, 66, 75, 48, 13] = true :=
  ⟨by decide, by decide,
    (loopback_echo_check [76, 66, 75, 48, 13] [76, 66, 75, 48, 13] (by decide)).1
      (by decide)⟩


/-! ## ReadSession idle-timeout watchdog

Source (`test.tsx`, `BalanzaLaTorre`, lines 457-468):

```js
const id = setInterval(() => {
  if (!lastSeenRef.current) return;
  const elapsed = Date.now() - lastSeenRef.current;
  if (elapsed > FRAME_TIMEOUT_MS) {
    smoothRef.current = [];
    setDisplayKg('0.000');
  }
}, 120);
```

The state touched by one poll is the last-telegram timestamp, the displayed
value and the smoothing window. There is no latch: the guard only checks the
timestamp against the threshold, so the body runs on every poll while the
session stays idle. -/

def FRAME_TIMEOUT_MS : Nat := 800

/-- The mutable session state read and written by the watchdog. -/
structure SessionState where
  lastSeen : Nat
  displayKg : String
  smooth : List ℚ
deriving DecidableEq

/-- The guard of the watchdog body: a telegram has been seen and the elapsed
time exceeds the threshold. -/
def watchdogFires (now : Nat) (st : SessionState) : Bool :=
  st.lastSeen != 0 && decide (FRAME_TIMEOUT_MS < now - st.lastSeen)

/-- One watchdog poll at time `now`. -/
def watchdogPoll (now : Nat) (st : SessionState) : SessionState :=
  if watchdogFires now st then { st with smooth := [], displayKg := "0.000" } else st

/-- C3 counterexample: with the last telegram at t = 1000 the watchdog body
runs at t = 1901 (resetting the display and the window) and runs AGAIN at
the next poll t = 2021 of the same idle period — the reset is re-executed on
every poll while idle, not exactly once. -/
theorem watchdog_resets_on_every_idle_poll :
    watchdogFires 1901 ⟨1000, "5.000", [5]⟩ = true
      ∧ (watchdogPoll 1901 ⟨1000, "5.000", [5]⟩).displayKg = "0.000"
      ∧ (watchdogPoll 1901 ⟨1000, "5.000", [5]⟩).smooth = []
      ∧ watchdogFires 2021 (watchdogPoll 1901 ⟨1000, "5.000", [5]⟩) = true := by
  refine ⟨by decide, ?_, ?_, by decide⟩ <;> rfl

/-- C3 (amended): during an idle period the watchdog performs the reset on
every poll, not exactly once; the reset is idempotent — it always writes the
same zero display and empty window — so the state after any later poll of
the same idle period equals the state right after the first reset. -/
theorem watchdog_reset_idempotent (st : SessionState) (t1 t2 : Nat)
    (h : watchdogFires t1 st = true) :
    watchdogPoll t2 (watchdogPoll t1 st) = watchdogPoll t1 st
      ∧ (watchdogPoll t1 st).displayKg = "0.000"
      ∧ (watchdogPoll t1 st).smooth = [] := by
  have h1 : watchdogPoll t1 st = { st with smooth := [], displayKg := "0.000" } := by
    unfold watchdogPoll
    rw [if_pos h]
  refine ⟨?_, by rw [h1], by rw [h1]⟩
  rw [h1]
  unfold watchdogPoll
  split
  · rfl
  · rfl

/-- Witness for C3's amended theorem at the counterexample's state. -/
theorem watchdog_reset_idempotent_witness :
    watchdogFires 1901 ⟨1000, "5.000", [5]⟩ = true
      ∧ watchdogPoll 2021 (watchdogPoll 1901 ⟨1000, "5.000", [5]⟩)
          = watchdogPoll 1901 ⟨1000, "5.000", [5]⟩ :=
  ⟨by decide, (watchdog_reset_idempotent ⟨1000, "5.000", [5]⟩ 1901 2021 (by decide)).1⟩

/-! ## SmoothingWindow

Source (`test.tsx`, `BalanzaLaTorre`, lines 413-414 and 522-528):

```js
const SMOOTH_WINDOW = 3;
...
const arr = smoothRef.current;
arr.push(res.kg);
if (arr.length > SMOOTH_WINDOW) arr.shift();
const avg = arr.reduce((a, b) => a + b, 0) / arr.length;
setDisplayKg(avg.toFixed(3));
```
-/

def SMOOTH_WINDOW : Nat := 3

/-- One smoothing update: push the new value, shift the oldest out when the
window overflows. -/
def pushSmooth (arr : List ℚ) (v : ℚ) : List ℚ :=
  let a := arr ++ [v]
  if SMOOTH_WINDOW < a.length then a.tail else a

/-- The window contents after feeding the decoded values `vs` in order into
an initially empty window. -/
def smoothAfter (vs : List ℚ) : List ℚ := vs.foldl pushSmooth []

/-- The displayed value computed from the window:
`arr.reduce((a,b) => a+b, 0) / arr.length`. -/
def smoothAvg (arr : List ℚ) : ℚ := arr.sum / (arr.length : ℚ)

/-- The last `n` elements of a list. -/
def lastN {β : Type*} (n : Nat) (l : List β) : List β := l.drop (l.length - n)

theorem lastN_all {β : Type*} {n : Nat} {l : List β} (h : l.length ≤ n) :
    lastN n l = l := by
  unfold lastN
  rw [Nat.sub_eq_zero_of_le h, List.drop_zero]

theorem lastN_tail_append {β : Type*} {l : List β} (r : List β) (h : l.length = 4) :
    lastN 3 (l.tail ++ r) = lastN 3 (l ++ r) := by
  unfold lastN
  have hlt : l ≠ [] := by
    intro hn
    rw [hn] at h
    simp at h
  rw [← List.drop_one, ← List.drop_append_of_le_length (by omega), List.drop_drop]
  have harith : 1 + ((List.drop 1 (l ++ r)).length - 3) = (l ++ r).length - 3 := by
    rw [List.length_drop, List.length_append]
    omega
  rw [harith]

theorem foldl_pushSmooth (vs : List ℚ) :
    ∀ init : List ℚ, init.length ≤ 3 → vs.foldl pushSmooth init = lastN 3 (init ++ vs) := by
  induction vs with
  | nil =>
    intro init h
    rw [List.foldl_nil, List.append_nil, lastN_all h]
  | cons v vs ih =>
    intro init h
    rw [List.foldl_cons]
    by_cases hc : SMOOTH_WINDOW < (init ++ [v]).length
    · have hps : pushSmooth init v = (init ++ [v]).tail := by
        unfold pushSmooth
        rw [if_pos hc]
      have hlen4 : (init ++ [v]).length = 4 := by
        have hc' : 3 < init.length + 1 := by
          simpa [SMOOTH_WINDOW, List.length_append] using hc
        simp only [List.length_append, List.length_singleton]
        omega
      have hlen : (pushSmooth init v).length ≤ 3 := by
        rw [hps, List.length_tail, hlen4]
      rw [ih _ hlen, hps, lastN_tail_append vs hlen4]
      rw [List.append_assoc]
      rfl
    · have hps : pushSmooth init v = init ++ [v] := by
        unfold pushSmooth
        rw [if_neg hc]
      have hlen : (pushSmooth init v).length ≤ 3 := by
        rw [hps]
        have hle := Nat.le_of_not_lt hc
        simpa [SMOOTH_WINDOW] using hle
      rw [ih _ hlen, hps, List.append_assoc]
      rfl

/-- C9: the smoothing window is a bounded FIFO. Starting from an empty
window, after feeding any sequence of decoded values the window holds the
last `min (length, 3)` values in arrival order (so its length never exceeds
`SMOOTH_WINDOW = 3`), one update keeps the bound, and the value displayed by
the read loop is the arithmetic mean of the values currently in the
window. -/
theorem smoothing_window_bounded_fifo (vs : List ℚ) :
    smoothAfter vs = lastN 3 vs
      ∧ (smoothAfter vs).length = min vs.length 3
      ∧ (∀ (arr : List ℚ) (v : ℚ), arr.length ≤ 3 → (pushSmooth arr v).length ≤ 3)
      ∧ (vs ≠ [] →
          smoothAvg (smoothAfter vs) = (lastN 3 vs).sum / (min vs.length 3 : ℚ)) := by
  have hmain : smoothAfter vs = lastN 3 vs := by
    have := foldl_pushSmooth vs [] (by simp)
    simpa [smoothAfter] using this
  have hlen : (smoothAfter vs).length = min vs.length 3 := by
    rw [hmain]
    unfold lastN
    rw [List.length_drop]
    omega
  refine ⟨hmain, hlen, ?_, ?_⟩
  · intro arr v h
    simp only [pushSmooth]
    split
    · simp only [List.length_tail, List.length_append, List.length_singleton]
      omega
    · rename_i hc
      have hle := Nat.le_of_not_lt hc
      simpa [SMOOTH_WINDOW] using hle
  · intro _
    have hlen' : (lastN 3 vs).length = min vs.length 3 := by
      rw [← hmain]
      exact hlen
    rw [smoothAvg, hmain, hlen']
    push_cast
    rfl

/-- Witness for C9 at four decoded values: the window keeps the last three
and the displayed value is their mean. -/
theorem smoothing_window_bounded_fifo_witness :
    ([1, 2, 3, 4] : List ℚ) ≠ []
      ∧ smoothAvg (smoothAfter [1, 2, 3, 4])
          = (lastN 3 [1, 2, 3, 4]).sum / (min (List.length [1, 2, 3, 4]) 3 : ℚ) :=
  ⟨by simp, (smoothing_window_bounded_fifo [1, 2, 3, 4]).2.2.2 (by simp)⟩


/-! ## ParameterSpace and ProbeEngine (`autoDetect` / `probeOnce`)

Source (`part_002` lines 37-43 and 86-145): the candidate lists

```js
const BAUDS = [1200, 2400, 4800, 9600, 19200];
const SETUPS = [ 8N1, 7E1 ];
const DELIMS = ["CR", "CRLF", "LF"];
```

`probeOnce` opens the channel with the candidate (re-thrown open errors are
caught and become a miss), frames lines, trims, skips blanks, and returns
the first line `parseWeight` accepts; `autoDetect` runs three nested loops
(baud, setup, delimiter) returning on the first hit.

A channel is modelled as a function from a configuration to either an open
failure or the finite list of framed lines the probe window yields under
that configuration. -/

def BAUDS : List Nat := [1200, 2400, 4800, 9600, 19200]

structure Setup where
  dataBits : Nat
  parity : String
  stopBits : Nat
  name : String
deriving DecidableEq

def SETUPS : List Setup :=
  [⟨8, "none", 1, "8N1"⟩, ⟨7, "even", 1, "7E1"⟩]

def DELIMS : List (List Char) := [['\r'], ['\r', '\n'], ['\n']]

structure DetectedConfig where
  baudRate : Nat
  dataBits : Nat
  parity : String
  stopBits : Nat
  delimiter : List Char
  name : String
deriving DecidableEq

def delimName (d : List Char) : String :=
  if d = ['\r'] then "CR" else if d = ['\r', '\n'] then "CRLF" else "LF"

/-- The candidate built in the loop body, label included. -/
def mkCfg (b : Nat) (s : Setup) (d : List Char) : DetectedConfig :=
  ⟨b, s.dataBits, s.parity, 1, d,
    Nat.repr b ++ " " ++ s.name ++ " " ++ delimName d⟩

/-- A channel: opening with a configuration either fails (`ConfigRejected`)
or yields the lines framed during the probe window. -/
def Channel : Type := DetectedConfig → Except String (List (List Char))

/-- The probe read loop: the first non-blank line whose `parseWeight`
succeeds, returned as `(sample, raw)`. -/
def scanLines (lines : List (List Char)) : Option (List Char × List Char) :=
  lines.findSome? (fun v =>
    let raw := jsTrim v
    if raw = [] then none
    else (parseWeight raw).map (fun parsed => (parsed, raw)))

/-- `probeOnce`: an open failure is caught and becomes a miss (`none`);
otherwise the window's lines are scanned. -/
def probeOnce (channel : Channel) (cfg : DetectedConfig) :
    Option (List Char × List Char) :=
  match channel cfg with
  | Except.error _ => none
  | Except.ok lines => scanLines lines

/-- The enumeration order of the three nested loops: baud outer, framing
preset middle, delimiter inner, each list in declared order. -/
def paramSpace : List DetectedConfig :=
  BAUDS.flatMap (fun b => SETUPS.flatMap (fun s => DELIMS.map (fun d => mkCfg b s d)))

/-- The first matching configuration among an explicit candidate list. -/
def detectFrom (channel : Channel) (cfgs : List DetectedConfig) :
    Option (DetectedConfig × (List Char × List Char)) :=
  cfgs.findSome? (fun cfg => (probeOnce channel cfg).map (fun pr => (cfg, pr)))

/-- `autoDetect`: the source's three nested loops with early return. -/
def autoDetect (channel : Channel) :
    Option (DetectedConfig × (List Char × List Char)) :=
  BAUDS.findSome? (fun b =>
    SETUPS.findSome? (fun s =>
      DELIMS.findSome? (fun d =>
        (probeOnce channel (mkCfg b s d)).map (fun pr => (mkCfg b s d, pr)))))

theorem findSome?_flatMap {β γ δ : Type*} (l : List β) (g : β → List γ)
    (f : γ → Option δ) :
    (l.flatMap g).findSome? f = l.findSome? (fun a => (g a).findSome? f) := by
  induction l with
  | nil => rfl
  | cons a as ih =>
    rw [List.flatMap_cons, List.findSome?_append, List.findSome?_cons]
    cases h : (g a).findSome? f with
    | some x => rfl
    | none =>
      rw [Option.none_or]
      exact ih

theorem findSome?_map_comp {β γ δ : Type*} (l : List β) (g : β → γ)
    (f : γ → Option δ) :
    (l.map g).findSome? f = l.findSome? (fun a => f (g a)) := by
  induction l with
  | nil => rfl
  | cons a as ih =>
    rw [List.map_cons, List.findSome?_cons, List.findSome?_cons]
    cases h : f (g a) with
    | some x => rfl
    | none => exact ih

theorem findSome?_eq_some_of_unique {β γ : Type*} {l : List β} {f : β → Option γ}
    {x : β} {y : γ} (hx : x ∈ l) (hfx : f x = some y)
    (hothers : ∀ z ∈ l, z ≠ x → f z = none) :
    l.findSome? f = some y := by
  induction l with
  | nil => exact absurd hx (by simp)
  | cons a as ih =>
    rw [List.findSome?_cons]
    by_cases hax : a = x
    · subst hax
      rw [hfx]
    · rw [hothers a (List.mem_cons_self a as) hax]
      have hx' : x ∈ as := by
        rcases List.mem_cons.mp hx with h | h
        · exact absurd h.symm hax
        · exact h
      exact ih hx' (fun z hz hzx => hothers z (List.mem_cons_of_mem a hz) hzx)

theorem findSome?_eq_none_of_all {β γ : Type*} {l : List β} {f : β → Option γ}
    (h : ∀ z ∈ l, f z = none) : l.findSome? f = none := by
  induction l with
  | nil => rfl
  | cons a as ih =>
    rw [List.findSome?_cons, h a (List.mem_cons_self a as)]
    exact ih (fun z hz => h z (List.mem_cons_of_mem a hz))

/-- C4: `autoDetect` enumerates baud rate (outer), framing preset (middle)
and delimiter (inner) over the fixed lists in declared order, and returns
the first configuration whose probe decodes a line, paired with the decoded
sample; when exactly one enumerated configuration decodes, exactly that
configuration and its first sample are returned, and when none decodes the
search returns nothing. -/
theorem autoDetect_enumeration (channel : Channel) :
    autoDetect channel = detectFrom channel paramSpace
      ∧ (∀ (cstar : DetectedConfig) (pr : List Char × List Char),
          cstar ∈ paramSpace → probeOnce channel cstar = some pr →
          (∀ c ∈ paramSpace, c ≠ cstar → probeOnce channel c = none) →
          autoDetect channel = some (cstar, pr))
      ∧ ((∀ c ∈ paramSpace, probeOnce channel c = none) →
          autoDetect channel = none) := by
  have hflat : autoDetect channel = detectFrom channel paramSpace := by
    unfold detectFrom paramSpace autoDetect
    simp only [findSome?_flatMap, findSome?_map_comp]
  refine ⟨hflat, ?_, ?_⟩
  · intro cstar pr hmem hprobe hothers
    rw [hflat]
    unfold detectFrom
    apply findSome?_eq_some_of_unique hmem
    · rw [hprobe]
      rfl
    · intro z hz hzx
      rw [hothers z hz hzx]
      rfl
  · intro hall
    rw [hflat]
    unfold detectFrom
    apply findSome?_eq_none_of_all
    intro z hz
    rw [hall z hz]
    rfl

/-- The configuration `2400 7E1 LF` used by the C4 witness. -/
def cfgW : DetectedConfig := mkCfg 2400 ⟨7, "even", 1, "7E1"⟩ ['\n']

/-- A simulated channel that yields one decodable line under `cfgW` only. -/
def chanW : Channel := fun cfg =>
  if cfg = cfgW then Except.ok [['4', '2']] else Except.ok []

/-- Witness for C4: `autoDetect` on the simulated channel returns exactly
the unique matching configuration and the decoded sample `42`. -/
theorem autoDetect_enumeration_witness :
    cfgW ∈ paramSpace
      ∧ probeOnce chanW cfgW = some (['4', '2'], ['4', '2'])
      ∧ autoDetect chanW = some (cfgW, (['4', '2'], ['4', '2'])) :=
  ⟨by decide, by decide,
    (autoDetect_enumeration chanW).2.1 cfgW (['4', '2'], ['4', '2'])
      (by decide) (by decide) (by decide)⟩

/-- C5: when opening the channel with a candidate configuration fails, the
probe catches the error and reports a miss for that configuration instead of
propagating the exception, and the surrounding search over a candidate list
simply moves on to the remaining candidates. -/
theorem probe_open_failure_recovery (channel : Channel) (cfg : DetectedConfig)
    (e : String) (h : channel cfg = Except.error e) :
    probeOnce channel cfg = none
      ∧ (∀ rest, detectFrom channel (cfg :: rest) = detectFrom channel rest) := by
  have hp : probeOnce channel cfg = none := by
    unfold probeOnce
    rw [h]
  refine ⟨hp, ?_⟩
  intro rest
  unfold detectFrom
  rw [List.findSome?_cons, hp]
  rfl

/-- Witness for C5: a channel that rejects every configuration still yields
a miss (no exception) and the search continues past the failed candidate. -/
theorem probe_open_failure_recovery_witness :
    (fun _ => Except.error "open failed" : Channel) cfgW = Except.error "open failed"
      ∧ probeOnce (fun _ => Except.error "open failed" : Channel) cfgW = none
      ∧ detectFrom (fun _ => Except.error "open failed" : Channel) [cfgW]
          = detectFrom (fun _ => Except.error "open failed" : Channel) [] :=
  ⟨rfl,
    (probe_open_failure_recovery (fun _ => Except.error "open failed") cfgW
      "open failed" rfl).1,
    (probe_open_failure_recovery (fun _ => Except.error "open failed") cfgW
      "open failed" rfl).2 []⟩

end ScaleReader
